import Mathlib

/-!
Verification of the float-bits crate: IEEE-754-style floats stored as raw
unsigned-integer bit patterns, with classification, a totalOrder comparator,
and sign-aware bit operations.  The `define!` macro in `src/macros.rs` is
modelled by a `Format` record (total width, exponent width); every generated
method becomes a function parameterized by the format, operating on `Nat`
bit patterns (machine integers are modelled as `Nat` with explicit bounds).
-/

namespace FloatBits

/-- Mirror of `core::num::FpCategory`, the result type of `classify`. -/
inductive FpCategory where
  | nan
  | infinite
  | zero
  | subnormal
  | normal
deriving DecidableEq, Repr

/-- One instantiation of the `define!` macro in `lib.rs`: a total bit width
(`size ... bits`) and an exponent field width (`exp ... bits`). -/
structure Format where
  BITS : Nat
  EXP_BITS : Nat
deriving DecidableEq, Repr

/-- The generated wrapper struct: `pub bits: $u_ty`, the raw bits of the float. -/
structure Value where
  bits : Nat
deriving DecidableEq, Repr

/-- Rust `from_bits`: constructs a wrapped float from the raw float bits. -/
def from_bits (bits : Nat) : Value := { bits := bits }

/-- Rust `to_bits`: returns the raw float bits. -/
def to_bits (v : Value) : Nat := v.bits

/-- Models the host-language native float of a given width at the bit level
(spec section 4.4): Rust guarantees `fN::to_bits` / `fN::from_bits` are exact
bit reinterpretations of the storage, so the native float is represented here
by its raw storage bits. -/
structure NativeFloat where
  bits : Nat
deriving DecidableEq, Repr

/-- Host `fN::to_bits`: the raw storage bits of the native float. -/
def NativeFloat.to_bits (x : NativeFloat) : Nat := x.bits

/-- Host `fN::from_bits`: bit reinterpretation of an integer as a native float. -/
def NativeFloat.from_bits (bits : Nat) : NativeFloat := { bits := bits }

/-- Rust `from_float`: `Self::from_bits(float.to_bits())`. -/
def from_float (x : NativeFloat) : Value := from_bits x.to_bits

/-- Rust `to_float`: `fN::from_bits(self.bits)`. -/
def to_float (v : Value) : NativeFloat := NativeFloat.from_bits v.bits

namespace helpers

/-- helpers.rs `is_zero`. -/
def is_zero : FpCategory → Bool
  | .zero => true
  | _ => false

/-- helpers.rs `is_subnormal`. -/
def is_subnormal : FpCategory → Bool
  | .subnormal => true
  | _ => false

/-- helpers.rs `is_normal`. -/
def is_normal : FpCategory → Bool
  | .normal => true
  | _ => false

/-- helpers.rs `is_infinite`. -/
def is_infinite : FpCategory → Bool
  | .infinite => true
  | _ => false

/-- helpers.rs `is_nan`. -/
def is_nan : FpCategory → Bool
  | .nan => true
  | _ => false

/-- helpers.rs `is_finite`. -/
def is_finite : FpCategory → Bool
  | .zero => true
  | .subnormal => true
  | .normal => true
  | _ => false

end helpers

/-- Two's-complement reinterpretation of a `w`-bit pattern as a signed integer,
modelling Rust `bits as $s_ty`. -/
def toSigned (w : Nat) (n : Nat) : Int :=
  if n < 2 ^ (w - 1) then (n : Int) else (n : Int) - 2 ^ w

namespace Format

/-- Rust `MANTISSA_BITS = BITS - EXP_BITS - 1`. -/
def MANTISSA_BITS (F : Format) : Nat := F.BITS - F.EXP_BITS - 1

/-- Bitwise complement at the format's width, modelling Rust `!x` on `$u_ty`. -/
def compl (F : Format) (x : Nat) : Nat := x ^^^ (2 ^ F.BITS - 1)

/-- Rust `ABS_MASK = <$u_ty>::MAX >> 1`: all bits except the sign bit. -/
def ABS_MASK (F : Format) : Nat := (2 ^ F.BITS - 1) >>> 1

/-- Rust `SIGN_MASK = !ABS_MASK`: the sign bit. -/
def SIGN_MASK (F : Format) : Nat := F.compl F.ABS_MASK

/-- Rust `MANT_MASK = ABS_MASK >> EXP_BITS`: the mantissa bits. -/
def MANT_MASK (F : Format) : Nat := F.ABS_MASK >>> F.EXP_BITS

/-- Rust `EXP_MASK = ABS_MASK & !MANT_MASK`: the exponent bits. -/
def EXP_MASK (F : Format) : Nat := F.ABS_MASK &&& F.compl F.MANT_MASK

/-- Rust `EXP_ZERO = EXP_MASK & (EXP_MASK >> 1)`: exponent pattern of `2^0`. -/
def EXP_ZERO (F : Format) : Nat := F.EXP_MASK &&& (F.EXP_MASK >>> 1)

/-- Rust `EXP_MAX = EXP_MASK & (EXP_MASK << 1)` (the shift is reduced at the
format's width, as Rust `<<` discards bits shifted out of `$u_ty`). -/
def EXP_MAX (F : Format) : Nat := F.EXP_MASK &&& ((F.EXP_MASK <<< 1) % 2 ^ F.BITS)

/-- Rust `EXP_MIN = EXP_MASK & !EXP_MAX`. -/
def EXP_MIN (F : Format) : Nat := F.EXP_MASK &&& F.compl F.EXP_MAX

/-- Rust `QUIET_MASK = MANT_MASK & !(MANT_MASK >> 1)`: top mantissa bit. -/
def QUIET_MASK (F : Format) : Nat := F.MANT_MASK &&& F.compl (F.MANT_MASK >>> 1)

/-- Rust `is_sign_positive`: `(self.bits & SIGN_MASK) == 0`. -/
def is_sign_positive (F : Format) (v : Value) : Bool :=
  decide (v.bits &&& F.SIGN_MASK = 0)

/-- Rust `is_sign_negative`: `!self.is_sign_positive()`. -/
def is_sign_negative (F : Format) (v : Value) : Bool :=
  !(F.is_sign_positive v)

/-- Rust `classify`: match on the masked exponent and mantissa fields. -/
def classify (F : Format) (v : Value) : FpCategory :=
  let exp := v.bits &&& F.EXP_MASK
  let mant := v.bits &&& F.MANT_MASK
  if exp = 0 then
    if mant = 0 then .zero else .subnormal
  else if exp = F.EXP_MASK then
    if mant = 0 then .infinite else .nan
  else .normal

/-- Rust `is_zero`: `helpers::is_zero(self.classify())`. -/
def is_zero (F : Format) (v : Value) : Bool := helpers.is_zero (F.classify v)

/-- Rust `is_subnormal`. -/
def is_subnormal (F : Format) (v : Value) : Bool := helpers.is_subnormal (F.classify v)

/-- Rust `is_normal`. -/
def is_normal (F : Format) (v : Value) : Bool := helpers.is_normal (F.classify v)

/-- Rust `is_infinite`. -/
def is_infinite (F : Format) (v : Value) : Bool := helpers.is_infinite (F.classify v)

/-- Rust `is_nan`. -/
def is_nan (F : Format) (v : Value) : Bool := helpers.is_nan (F.classify v)

/-- Rust `is_finite`. -/
def is_finite (F : Format) (v : Value) : Bool := helpers.is_finite (F.classify v)

/-- Rust `abs`: `self.bits & ABS_MASK`. -/
def abs (F : Format) (v : Value) : Value := { bits := v.bits &&& F.ABS_MASK }

/-- Rust `neg`: `self.bits ^ SIGN_MASK`. -/
def neg (F : Format) (v : Value) : Value := { bits := v.bits ^^^ F.SIGN_MASK }

/-- Rust `copysign`: `(self.bits & ABS_MASK) | (sign.bits & SIGN_MASK)`. -/
def copysign (F : Format) (v sign : Value) : Value :=
  { bits := (v.bits &&& F.ABS_MASK) ||| (sign.bits &&& F.SIGN_MASK) }

/-- Rust constant `ZERO = from_bits(0)`. -/
def ZERO (_F : Format) : Value := from_bits 0

/-- Rust constant `ONE = from_bits(EXP_ZERO)`. -/
def ONE (F : Format) : Value := from_bits F.EXP_ZERO

/-- Rust constant `INFINITY = from_bits(EXP_MASK)`. -/
def INFINITY (F : Format) : Value := from_bits F.EXP_MASK

/-- Rust constant `SNAN = from_bits(EXP_MASK | 1)`. -/
def SNAN (F : Format) : Value := from_bits (F.EXP_MASK ||| 1)

/-- Rust constant `QNAN = from_bits(EXP_MASK | QUIET_MASK | 1)`. -/
def QNAN (F : Format) : Value := from_bits (F.EXP_MASK ||| F.QUIET_MASK ||| 1)

/-- Rust constant `NEG_ZERO = ZERO.neg()`. -/
def NEG_ZERO (F : Format) : Value := F.neg (F.ZERO)

/-- Rust constant `NEG_ONE = ONE.neg()`. -/
def NEG_ONE (F : Format) : Value := F.neg (F.ONE)

/-- Rust constant `NEG_INFINITY = INFINITY.neg()`. -/
def NEG_INFINITY (F : Format) : Value := F.neg (F.INFINITY)

/-- Rust constant `NEG_SNAN = SNAN.neg()`. -/
def NEG_SNAN (F : Format) : Value := F.neg (F.SNAN)

/-- Rust constant `NEG_QNAN = QNAN.neg()`. -/
def NEG_QNAN (F : Format) : Value := F.neg (F.QNAN)

/-- Rust constant `MAX = from_bits(EXP_MAX | MANT_MASK)`. -/
def MAX (F : Format) : Value := from_bits (F.EXP_MAX ||| F.MANT_MASK)

/-- Rust constant `MIN = MAX.neg()`. -/
def MIN (F : Format) : Value := F.neg (F.MAX)

/-- Rust constant `MIN_POSITIVE = from_bits(EXP_MIN)`. -/
def MIN_POSITIVE (F : Format) : Value := from_bits F.EXP_MIN

/-- Rust constant `MAX_NEGATIVE = MIN_POSITIVE.neg()`. -/
def MAX_NEGATIVE (F : Format) : Value := F.neg (F.MIN_POSITIVE)

/-- Rust `signum`: `self` if NaN, else `NEG_ONE` if sign-negative, else `ONE`. -/
def signum (F : Format) (v : Value) : Value :=
  if F.is_nan v then v
  else if F.is_sign_negative v then F.NEG_ONE
  else F.ONE

/-- Rust `sort_bits`: flip the non-sign bits of negative values, then
reinterpret as a signed integer of the same width. -/
def sort_bits (F : Format) (v : Value) : Int :=
  let mask := if F.is_sign_negative v then F.ABS_MASK else 0
  toSigned F.BITS (v.bits ^^^ mask)

/-- Rust `total_cmp`: numeric comparison of the two sort keys. -/
def total_cmp (F : Format) (a b : Value) : Ordering :=
  let lhs := F.sort_bits a
  let rhs := F.sort_bits b
  if lhs = rhs then .eq
  else if lhs < rhs then .lt
  else .gt

/-- Rust `clamp`; the three `panic!` branches are modelled as `none`. -/
def clamp (F : Format) (v mn mx : Value) : Option Value :=
  if F.is_nan mn then none
  else if F.is_nan mx then none
  else if F.total_cmp mn mx = .gt then none
  else if F.is_nan v then some v
  else if F.total_cmp v mn = .lt then some mn
  else if F.total_cmp v mx = .gt then some mx
  else some v

/-- The `impl Default` generated by `define_tail!`: returns `Self::ZERO`. -/
def defaultValue (F : Format) : Value := F.ZERO

/-- Structural invariant satisfied by every instantiation in `lib.rs`: the
exponent field is nonempty and leaves at least one mantissa bit. -/
def Valid (F : Format) : Prop := 0 < F.EXP_BITS ∧ F.EXP_BITS + 1 < F.BITS

instance (F : Format) : Decidable F.Valid := by
  unfold Valid; infer_instance

end Format

/-- Instantiation `BF16`: 16 bits, 8 exponent bits. -/
def F_BF16 : Format := { BITS := 16, EXP_BITS := 8 }

/-- Instantiation `F16`: 16 bits, 5 exponent bits. -/
def F_F16 : Format := { BITS := 16, EXP_BITS := 5 }

/-- Instantiation `F32`: 32 bits, 8 exponent bits. -/
def F_F32 : Format := { BITS := 32, EXP_BITS := 8 }

/-- Instantiation `F64`: 64 bits, 11 exponent bits. -/
def F_F64 : Format := { BITS := 64, EXP_BITS := 11 }

/-- Instantiation `F128`: 128 bits, 15 exponent bits. -/
def F_F128 : Format := { BITS := 128, EXP_BITS := 15 }

/-- Rank of a value in the spec's section 4.2 ordering sequence (written from
the spec's words, for comparison with `total_cmp`): negative quiet NaN,
negative signaling NaN, negative infinity, negative normals, negative
subnormals, negative zero, positive zero, positive subnormals, positive
normals, positive infinity, positive signaling NaN, positive quiet NaN. -/
def rank (F : Format) (v : Value) : Nat :=
  let n := F.is_sign_negative v
  match F.classify v with
  | .nan =>
    if v.bits &&& F.QUIET_MASK = 0 then (if n then 1 else 10)
    else (if n then 0 else 11)
  | .infinite => if n then 2 else 9
  | .normal => if n then 3 else 8
  | .subnormal => if n then 4 else 7
  | .zero => if n then 5 else 6

/-- Least possible `sort_bits` key among values of a given rank (proof
infrastructure for the ordering theorem). -/
def keyLo (F : Format) : Nat → Int :=
  fun r =>
    let N : Int := 2 ^ F.MANTISSA_BITS
    let Q : Int := 2 ^ (F.MANTISSA_BITS - 1)
    let H : Int := 2 ^ (F.BITS - 1)
    let E : Int := H - N
    match r with
    | 0 => -H
    | 1 => -(E + Q)
    | 2 => -(E + 1)
    | 3 => -E
    | 4 => -N
    | 5 => -1
    | 6 => 0
    | 7 => 1
    | 8 => N
    | 9 => E
    | 10 => E + 1
    | _ => E + Q

/-- Greatest possible `sort_bits` key among values of a given rank (proof
infrastructure for the ordering theorem). -/
def keyHi (F : Format) : Nat → Int :=
  fun r =>
    let N : Int := 2 ^ F.MANTISSA_BITS
    let Q : Int := 2 ^ (F.MANTISSA_BITS - 1)
    let H : Int := 2 ^ (F.BITS - 1)
    let E : Int := H - N
    match r with
    | 0 => -(E + Q) - 1
    | 1 => -E - 2
    | 2 => -(E + 1)
    | 3 => -(N + 1)
    | 4 => -2
    | 5 => -1
    | 6 => 0
    | 7 => N - 1
    | 8 => E - 1
    | 9 => E
    | 10 => E + Q - 1
    | _ => H - 1

end FloatBits

namespace FloatBits

/-! ### Arithmetic and bit-level helper lemmas -/

theorem two_pow_sub_one_div (a b : Nat) : (2 ^ (a + b) - 1) / 2 ^ b = 2 ^ a - 1 := by
  have hb : 0 < 2 ^ b := Nat.two_pow_pos b
  have ha : 0 < 2 ^ a := Nat.two_pow_pos a
  have h1 : 2 ^ b * (2 ^ a - 1) = 2 ^ b * 2 ^ a - 2 ^ b := by
    obtain ⟨k, hk⟩ : ∃ k, 2 ^ a = k + 1 := ⟨2 ^ a - 1, by omega⟩
    rw [hk, Nat.add_sub_cancel, Nat.mul_succ]
    omega
  have h2 : 2 ^ b * 2 ^ a = 2 ^ (a + b) := by
    rw [← Nat.pow_add, Nat.add_comm]
  have h3 : 2 ^ b ≤ 2 ^ (a + b) := Nat.pow_le_pow_right (by norm_num) (by omega)
  have hsplit : 2 ^ (a + b) - 1 = 2 ^ b * (2 ^ a - 1) + (2 ^ b - 1) := by omega
  rw [hsplit, Nat.mul_add_div hb, Nat.div_eq_of_lt (by omega)]
  omega

theorem two_pow_sub_one_mod (a b : Nat) : (2 ^ (a + b) - 1) % 2 ^ b = 2 ^ b - 1 := by
  have hb : 0 < 2 ^ b := Nat.two_pow_pos b
  have ha : 0 < 2 ^ a := Nat.two_pow_pos a
  have h1 : 2 ^ b * (2 ^ a - 1) = 2 ^ b * 2 ^ a - 2 ^ b := by
    obtain ⟨k, hk⟩ : ∃ k, 2 ^ a = k + 1 := ⟨2 ^ a - 1, by omega⟩
    rw [hk, Nat.add_sub_cancel, Nat.mul_succ]
    omega
  have h2 : 2 ^ b * 2 ^ a = 2 ^ (a + b) := by
    rw [← Nat.pow_add, Nat.add_comm]
  have h3 : 2 ^ b ≤ 2 ^ (a + b) := Nat.pow_le_pow_right (by norm_num) (by omega)
  have hsplit : 2 ^ (a + b) - 1 = 2 ^ b * (2 ^ a - 1) + (2 ^ b - 1) := by omega
  rw [hsplit, Nat.mul_add_mod, Nat.mod_eq_of_lt (by omega)]

theorem xor_all_ones {n x : Nat} (h : x < 2 ^ n) : x ^^^ (2 ^ n - 1) = 2 ^ n - (x + 1) := by
  apply Nat.eq_of_testBit_eq
  intro i
  rw [Nat.testBit_xor, Nat.testBit_two_pow_sub_one, Nat.testBit_two_pow_sub_succ h]
  rcases Nat.lt_or_ge i n with hi | hi
  · simp [hi]
  · have hx : x.testBit i = false :=
      Nat.testBit_lt_two_pow (lt_of_lt_of_le h (Nat.pow_le_pow_right (by norm_num) hi))
    simp [hx, Nat.not_lt.mpr hi]

theorem compl_eq (F : Format) {x : Nat} (h : x < 2 ^ F.BITS) :
    F.compl x = 2 ^ F.BITS - (x + 1) := by
  unfold Format.compl
  exact xor_all_ones h

theorem and_two_pow_eq_zero_iff (x i : Nat) :
    x &&& 2 ^ i = 0 ↔ x.testBit i = false := by
  constructor
  · intro h
    by_contra hb
    have hb' : x.testBit i = true := by revert hb; cases x.testBit i <;> simp
    have hcontra : (x &&& 2 ^ i).testBit i = true := by
      rw [Nat.testBit_and, hb', Nat.testBit_two_pow_self]
      rfl
    rw [h] at hcontra
    simp at hcontra
  · intro h
    apply Nat.eq_of_testBit_eq
    intro j
    rw [Nat.testBit_and, Nat.zero_testBit]
    rcases eq_or_ne j i with rfl | hj
    · simp [h]
    · rw [Nat.testBit_two_pow_of_ne (Ne.symm hj)]
      simp

theorem testBit_top {x n : Nat} (h : x < 2 ^ (n + 1)) :
    x.testBit n = decide (2 ^ n ≤ x) := by
  have h3 : 0 < 2 ^ n := Nat.two_pow_pos n
  rw [Nat.testBit_to_div_mod]
  rcases Nat.lt_or_ge x (2 ^ n) with hx | hx
  · rw [Nat.div_eq_of_lt hx]
    simp [Nat.not_le.mpr hx]
  · have h2 : x / 2 ^ n < 2 := by
      rw [Nat.div_lt_iff_lt_mul h3]
      rw [Nat.pow_succ] at h
      omega
    have hq1 : 1 ≤ x / 2 ^ n := (Nat.one_le_div_iff h3).mpr hx
    have hq : x / 2 ^ n = 1 := by omega
    rw [hq]
    simp [hx]

/-! ### Closed forms of the per-format masks -/

theorem absMask_eq (F : Format) (hF : F.Valid) : F.ABS_MASK = 2 ^ (F.BITS - 1) - 1 := by
  obtain ⟨he, hw⟩ := hF
  unfold Format.ABS_MASK
  rw [Nat.shiftRight_eq_div_pow]
  rw [show F.BITS = (F.BITS - 1) + 1 from by omega]
  rw [two_pow_sub_one_div (F.BITS - 1) 1]
  simp

theorem absMask_lt (F : Format) (hF : F.Valid) : F.ABS_MASK < 2 ^ F.BITS := by
  rw [absMask_eq F hF]
  have h : 2 ^ (F.BITS - 1) ≤ 2 ^ F.BITS := Nat.pow_le_pow_right (by norm_num) (by omega)
  have h2 : 0 < 2 ^ (F.BITS - 1) := Nat.two_pow_pos _
  omega

theorem mantBits_pos (F : Format) (hF : F.Valid) : 0 < F.MANTISSA_BITS := by
  obtain ⟨he, hw⟩ := hF
  unfold Format.MANTISSA_BITS
  omega

theorem mantBits_add_expBits (F : Format) (hF : F.Valid) :
    F.MANTISSA_BITS + F.EXP_BITS = F.BITS - 1 := by
  obtain ⟨he, hw⟩ := hF
  unfold Format.MANTISSA_BITS
  omega

theorem mantMask_eq (F : Format) (hF : F.Valid) :
    F.MANT_MASK = 2 ^ F.MANTISSA_BITS - 1 := by
  unfold Format.MANT_MASK
  rw [absMask_eq F hF, Nat.shiftRight_eq_div_pow]
  rw [show F.BITS - 1 = F.MANTISSA_BITS + F.EXP_BITS from (mantBits_add_expBits F hF).symm]
  exact two_pow_sub_one_div _ _

theorem signMask_eq (F : Format) (hF : F.Valid) : F.SIGN_MASK = 2 ^ (F.BITS - 1) := by
  unfold Format.SIGN_MASK
  rw [compl_eq F (absMask_lt F hF), absMask_eq F hF]
  have h2 : 0 < 2 ^ (F.BITS - 1) := Nat.two_pow_pos _
  have h3 : 2 ^ F.BITS = 2 ^ (F.BITS - 1) * 2 := by
    rw [← Nat.pow_succ]
    congr 1
    obtain ⟨he, hw⟩ := hF
    omega
  omega

theorem expMask_eq (F : Format) (hF : F.Valid) :
    F.EXP_MASK = 2 ^ (F.BITS - 1) - 2 ^ F.MANTISSA_BITS := by
  have hm : 0 < 2 ^ F.MANTISSA_BITS := Nat.two_pow_pos _
  have hmw : 2 ^ F.MANTISSA_BITS ≤ 2 ^ (F.BITS - 1) :=
    Nat.pow_le_pow_right (by norm_num) (by have := mantBits_add_expBits F hF; omega)
  have hh : 2 ^ F.BITS = 2 ^ (F.BITS - 1) * 2 := by
    rw [← Nat.pow_succ]
    congr 1
    obtain ⟨he, hw⟩ := hF
    omega
  have hmlt : F.MANT_MASK < 2 ^ F.BITS := by
    rw [mantMask_eq F hF]
    omega
  unfold Format.EXP_MASK
  rw [compl_eq F hmlt, mantMask_eq F hF, absMask_eq F hF]
  rw [show 2 ^ F.BITS - (2 ^ F.MANTISSA_BITS - 1 + 1) = 2 ^ F.BITS - 2 ^ F.MANTISSA_BITS from
    by omega]
  rw [Nat.and_comm, Nat.and_pow_two_sub_one_eq_mod]
  rw [show 2 ^ F.BITS - 2 ^ F.MANTISSA_BITS
      = 2 ^ (F.BITS - 1) + (2 ^ (F.BITS - 1) - 2 ^ F.MANTISSA_BITS) from by omega]
  rw [Nat.add_mod_left]
  exact Nat.mod_eq_of_lt (by omega)

theorem quietMask_eq (F : Format) (hF : F.Valid) :
    F.QUIET_MASK = 2 ^ (F.MANTISSA_BITS - 1) := by
  have hm1 : 0 < F.MANTISSA_BITS := mantBits_pos F hF
  have hq : 0 < 2 ^ (F.MANTISSA_BITS - 1) := Nat.two_pow_pos _
  have hmm : 2 ^ F.MANTISSA_BITS = 2 ^ (F.MANTISSA_BITS - 1) * 2 := by
    rw [← Nat.pow_succ]
    congr 1
    omega
  have hmw : 2 ^ F.MANTISSA_BITS ≤ 2 ^ F.BITS :=
    Nat.pow_le_pow_right (by norm_num) (by obtain ⟨he, hw⟩ := hF; unfold Format.MANTISSA_BITS; omega)
  have hshift : F.MANT_MASK >>> 1 = 2 ^ (F.MANTISSA_BITS - 1) - 1 := by
    rw [mantMask_eq F hF, Nat.shiftRight_eq_div_pow]
    rw [show F.MANTISSA_BITS = (F.MANTISSA_BITS - 1) + 1 from by omega]
    exact two_pow_sub_one_div _ 1
  have hlt : F.MANT_MASK >>> 1 < 2 ^ F.BITS := by
    rw [hshift]
    omega
  unfold Format.QUIET_MASK
  rw [compl_eq F hlt, hshift, mantMask_eq F hF]
  rw [show 2 ^ F.BITS - (2 ^ (F.MANTISSA_BITS - 1) - 1 + 1)
      = 2 ^ F.BITS - 2 ^ (F.MANTISSA_BITS - 1) from by omega]
  rw [Nat.and_comm, Nat.and_pow_two_sub_one_eq_mod]
  have hK : 2 ^ F.MANTISSA_BITS * 2 ^ (F.BITS - F.MANTISSA_BITS) = 2 ^ F.BITS := by
    rw [← Nat.pow_add]
    congr 1
    obtain ⟨he, hw⟩ := hF
    unfold Format.MANTISSA_BITS
    omega
  obtain ⟨k, hk⟩ : ∃ k, 2 ^ (F.BITS - F.MANTISSA_BITS) = k + 1 :=
    ⟨2 ^ (F.BITS - F.MANTISSA_BITS) - 1, by have := Nat.two_pow_pos (F.BITS - F.MANTISSA_BITS); omega⟩
  rw [hk, Nat.mul_succ] at hK
  rw [show 2 ^ F.BITS - 2 ^ (F.MANTISSA_BITS - 1)
      = 2 ^ F.MANTISSA_BITS * k + 2 ^ (F.MANTISSA_BITS - 1) from by omega]
  rw [Nat.mul_add_mod]
  exact Nat.mod_eq_of_lt (by omega)

end FloatBits

namespace FloatBits

/-! ### Field extraction lemmas -/

theorem and_mantMask (F : Format) (hF : F.Valid) (x : Nat) :
    x &&& F.MANT_MASK = x % 2 ^ F.MANTISSA_BITS := by
  rw [mantMask_eq F hF, Nat.and_pow_two_sub_one_eq_mod]

theorem and_absMask (F : Format) (hF : F.Valid) (x : Nat) :
    x &&& F.ABS_MASK = x % 2 ^ (F.BITS - 1) := by
  rw [absMask_eq F hF, Nat.and_pow_two_sub_one_eq_mod]

theorem and_shifted_mask (x k a : Nat) :
    x &&& ((2 ^ a - 1) <<< k) = ((x >>> k) % 2 ^ a) <<< k := by
  apply Nat.eq_of_testBit_eq
  intro i
  simp only [Nat.testBit_and, Nat.testBit_shiftLeft, Nat.testBit_two_pow_sub_one,
    Nat.testBit_mod_two_pow, Nat.testBit_shiftRight]
  rcases Nat.lt_or_ge i k with hik | hik
  · simp [Nat.not_le.mpr hik]
  · have hk : k + (i - k) = i := by omega
    have hd : decide (k ≤ i) = true := by simp [hik]
    simp only [ge_iff_le, hd, Bool.true_and, hk]
    cases x.testBit i <;> cases decide (i - k < a) <;> simp

theorem expMask_shift (F : Format) (hF : F.Valid) :
    F.EXP_MASK = (2 ^ F.EXP_BITS - 1) <<< F.MANTISSA_BITS := by
  rw [expMask_eq F hF, Nat.shiftLeft_eq]
  have hpow : 2 ^ F.EXP_BITS * 2 ^ F.MANTISSA_BITS = 2 ^ (F.BITS - 1) := by
    rw [← Nat.pow_add]
    congr 1
    have := mantBits_add_expBits F hF
    omega
  rw [tsub_mul, one_mul, hpow]

theorem and_expMask (F : Format) (hF : F.Valid) (x : Nat) :
    x &&& F.EXP_MASK = ((x / 2 ^ F.MANTISSA_BITS) % 2 ^ F.EXP_BITS) * 2 ^ F.MANTISSA_BITS := by
  rw [expMask_shift F hF, and_shifted_mask, Nat.shiftLeft_eq, Nat.shiftRight_eq_div_pow]

theorem sign_neg_char (F : Format) (hF : F.Valid) (v : Value) (hv : v.bits < 2 ^ F.BITS) :
    F.is_sign_negative v = decide (2 ^ (F.BITS - 1) ≤ v.bits) := by
  have hw1 : F.BITS - 1 + 1 = F.BITS := by obtain ⟨he, hw⟩ := hF; omega
  have htop : v.bits.testBit (F.BITS - 1) = decide (2 ^ (F.BITS - 1) ≤ v.bits) :=
    testBit_top (by rw [hw1]; exact hv)
  unfold Format.is_sign_negative Format.is_sign_positive
  rw [signMask_eq F hF, ← htop]
  cases hbit : v.bits.testBit (F.BITS - 1)
  · rw [(and_two_pow_eq_zero_iff _ _).mpr hbit]
    simp
  · have hne : ¬(v.bits &&& 2 ^ (F.BITS - 1) = 0) := by
      rw [and_two_pow_eq_zero_iff]
      simp [hbit]
    simp [hne]

theorem quiet_char (F : Format) (hF : F.Valid) (v : Value) :
    (v.bits &&& F.QUIET_MASK = 0) ↔
      v.bits % 2 ^ F.MANTISSA_BITS < 2 ^ (F.MANTISSA_BITS - 1) := by
  have hm1 : 0 < F.MANTISSA_BITS := mantBits_pos F hF
  rw [quietMask_eq F hF, and_two_pow_eq_zero_iff]
  have h1 : v.bits.testBit (F.MANTISSA_BITS - 1)
      = (v.bits % 2 ^ F.MANTISSA_BITS).testBit (F.MANTISSA_BITS - 1) := by
    rw [Nat.testBit_mod_two_pow]
    simp [show F.MANTISSA_BITS - 1 < F.MANTISSA_BITS from by omega]
  have h2 : (v.bits % 2 ^ F.MANTISSA_BITS).testBit (F.MANTISSA_BITS - 1)
      = decide (2 ^ (F.MANTISSA_BITS - 1) ≤ v.bits % 2 ^ F.MANTISSA_BITS) := by
    apply testBit_top
    rw [show F.MANTISSA_BITS - 1 + 1 = F.MANTISSA_BITS from by omega]
    exact Nat.mod_lt _ (Nat.two_pow_pos _)
  rw [h1, h2]
  simp [Nat.not_le]

/-! ### Sort key characterization -/

theorem xor_top_ones {n u : Nat} (hu : u < 2 ^ n) :
    (2 ^ n + u) ^^^ (2 ^ n - 1) = 2 ^ n + (2 ^ n - (u + 1)) := by
  have hc : 2 ^ n - (u + 1) < 2 ^ n := by have := Nat.two_pow_pos n; omega
  apply Nat.eq_of_testBit_eq
  intro i
  rw [Nat.testBit_xor]
  rw [show 2 ^ n + u = 2 ^ n * 1 + u from by omega]
  rw [Nat.testBit_mul_pow_two_add 1 hu]
  rw [show 2 ^ n + (2 ^ n - (u + 1)) = 2 ^ n * 1 + (2 ^ n - (u + 1)) from by omega]
  rw [Nat.testBit_mul_pow_two_add 1 hc]
  rw [Nat.testBit_two_pow_sub_one, Nat.testBit_two_pow_sub_succ hu]
  rcases Nat.lt_or_ge i n with hi | hi
  · simp [hi]
  · simp [Nat.not_lt.mpr hi]

theorem sort_bits_eq (F : Format) (hF : F.Valid) (v : Value) (hv : v.bits < 2 ^ F.BITS) :
    F.sort_bits v =
      if 2 ^ (F.BITS - 1) ≤ v.bits
      then -(((v.bits % 2 ^ (F.BITS - 1) : Nat) : Int) + 1)
      else (v.bits : Int) := by
  have hw1 : F.BITS - 1 + 1 = F.BITS := by obtain ⟨he, hw⟩ := hF; omega
  have hh : (2 : Nat) ^ F.BITS = 2 ^ (F.BITS - 1) * 2 := by
    rw [← Nat.pow_succ]
    congr 1
    omega
  unfold Format.sort_bits
  rw [sign_neg_char F hF v hv]
  rcases Nat.lt_or_ge v.bits (2 ^ (F.BITS - 1)) with hx | hx
  · have hd : decide (2 ^ (F.BITS - 1) ≤ v.bits) = false := by
      simp [Nat.not_le.mpr hx]
    rw [hd, if_neg (Nat.not_le.mpr hx)]
    simp only [Bool.false_eq_true, if_false, Nat.xor_zero]
    unfold toSigned
    rw [if_pos hx]
  · have hd : decide (2 ^ (F.BITS - 1) ≤ v.bits) = true := by simp [hx]
    rw [hd, if_pos hx]
    simp only [if_true]
    rw [absMask_eq F hF]
    have hu : v.bits - 2 ^ (F.BITS - 1) < 2 ^ (F.BITS - 1) := by omega
    have hmod : v.bits % 2 ^ (F.BITS - 1) = v.bits - 2 ^ (F.BITS - 1) := by
      rw [Nat.mod_eq_sub_mod hx, Nat.mod_eq_of_lt hu]
    rw [show v.bits = 2 ^ (F.BITS - 1) + (v.bits - 2 ^ (F.BITS - 1)) from by omega]
    rw [xor_top_ones hu]
    unfold toSigned
    rw [if_neg (by have := Nat.two_pow_pos (F.BITS - 1); omega)]
    rw [show 2 ^ (F.BITS - 1) + (v.bits - 2 ^ (F.BITS - 1)) = v.bits from by omega, hmod]
    have hc1 : (2 : Int) ^ F.BITS = 2 ^ (F.BITS - 1) * 2 := by exact_mod_cast hh
    have hle : v.bits - 2 ^ (F.BITS - 1) + 1 ≤ 2 ^ (F.BITS - 1) := by omega
    push_cast [Nat.sub_add_cancel, hle, hx]
    omega

end FloatBits

namespace FloatBits

/-! ### Classification characterized by the magnitude bits -/

theorem classify_char (F : Format) (hF : F.Valid) (v : Value) (hv : v.bits < 2 ^ F.BITS) :
    F.classify v =
      (if v.bits % 2 ^ (F.BITS - 1) = 0 then .zero
       else if v.bits % 2 ^ (F.BITS - 1) < 2 ^ F.MANTISSA_BITS then .subnormal
       else if v.bits % 2 ^ (F.BITS - 1) < 2 ^ (F.BITS - 1) - 2 ^ F.MANTISSA_BITS then .normal
       else if v.bits % 2 ^ (F.BITS - 1) = 2 ^ (F.BITS - 1) - 2 ^ F.MANTISSA_BITS then .infinite
       else .nan) := by
  have hm1 : 0 < F.MANTISSA_BITS := mantBits_pos F hF
  have hme : F.MANTISSA_BITS + F.EXP_BITS = F.BITS - 1 := mantBits_add_expBits F hF
  have hMpos : 0 < 2 ^ F.MANTISSA_BITS := Nat.two_pow_pos _
  have hEpos : 0 < 2 ^ F.EXP_BITS := Nat.two_pow_pos _
  have hpow : 2 ^ F.MANTISSA_BITS * 2 ^ F.EXP_BITS = 2 ^ (F.BITS - 1) := by
    rw [← Nat.pow_add, hme]
  set u := v.bits % 2 ^ (F.BITS - 1) with hu_def
  have hult : u < 2 ^ (F.BITS - 1) := Nat.mod_lt _ (Nat.two_pow_pos _)
  have hmant : v.bits &&& F.MANT_MASK = u % 2 ^ F.MANTISSA_BITS := by
    rw [and_mantMask F hF, hu_def, Nat.mod_mod_of_dvd]
    exact pow_dvd_pow 2 (by omega)
  have hdiv : u / 2 ^ F.MANTISSA_BITS = (v.bits / 2 ^ F.MANTISSA_BITS) % 2 ^ F.EXP_BITS := by
    rw [hu_def, ← hpow]
    exact Nat.mod_mul_right_div_self _ _ _
  have hexp : v.bits &&& F.EXP_MASK = u / 2 ^ F.MANTISSA_BITS * 2 ^ F.MANTISSA_BITS := by
    rw [and_expMask F hF, ← hdiv]
  have hEeq : 2 ^ (F.BITS - 1) - 2 ^ F.MANTISSA_BITS
      = (2 ^ F.EXP_BITS - 1) * 2 ^ F.MANTISSA_BITS := by
    rw [tsub_mul, one_mul, Nat.mul_comm (2 ^ F.EXP_BITS) (2 ^ F.MANTISSA_BITS), hpow]
  have hmod_eq : v.bits &&& F.EXP_MASK = 0 ↔ u < 2 ^ F.MANTISSA_BITS := by
    rw [hexp]
    constructor
    · intro h
      rcases Nat.mul_eq_zero.mp h with h0 | h0
      · have h1 := Nat.div_add_mod u (2 ^ F.MANTISSA_BITS)
        rw [h0, Nat.mul_zero, Nat.zero_add] at h1
        have h2 := Nat.mod_lt u hMpos
        omega
      · omega
    · intro h
      rw [Nat.div_eq_of_lt h, Nat.zero_mul]
  have hexp_top : v.bits &&& F.EXP_MASK = F.EXP_MASK ↔
      2 ^ (F.BITS - 1) - 2 ^ F.MANTISSA_BITS ≤ u := by
    rw [hexp, expMask_eq F hF]
    constructor
    · intro h
      have h1 : u / 2 ^ F.MANTISSA_BITS * 2 ^ F.MANTISSA_BITS ≤ u := Nat.div_mul_le_self u _
      omega
    · intro h
      have hqlt : u / 2 ^ F.MANTISSA_BITS < 2 ^ F.EXP_BITS := by
        rw [Nat.div_lt_iff_lt_mul hMpos]
        rw [Nat.mul_comm (2 ^ F.EXP_BITS) (2 ^ F.MANTISSA_BITS), hpow]
        exact hult
      have hqge : (2 ^ (F.BITS - 1) - 2 ^ F.MANTISSA_BITS) / 2 ^ F.MANTISSA_BITS
          ≤ u / 2 ^ F.MANTISSA_BITS := Nat.div_le_div_right h
      rw [hEeq, Nat.mul_div_cancel _ hMpos] at hqge
      have hq_eq : u / 2 ^ F.MANTISSA_BITS = 2 ^ F.EXP_BITS - 1 := by omega
      rw [hq_eq, ← hEeq]
  simp only [Format.classify]
  rw [hmant]
  rcases Nat.lt_or_ge u (2 ^ F.MANTISSA_BITS) with h1 | h1
  · rw [if_pos (hmod_eq.mpr h1), Nat.mod_eq_of_lt h1]
    rcases eq_or_ne u 0 with h0 | h0
    · rw [if_pos h0, if_pos h0]
    · rw [if_neg h0, if_neg h0, if_pos h1]
  · rw [if_neg (show ¬(v.bits &&& F.EXP_MASK = 0) from by rw [hmod_eq]; omega)]
    rw [if_neg (show ¬(u = 0) from by omega)]
    rw [if_neg (show ¬(u < 2 ^ F.MANTISSA_BITS) from by omega)]
    rcases Nat.lt_or_ge u (2 ^ (F.BITS - 1) - 2 ^ F.MANTISSA_BITS) with h2 | h2
    · rw [if_neg (show ¬(v.bits &&& F.EXP_MASK = F.EXP_MASK) from by rw [hexp_top]; omega)]
      rw [if_pos h2]
    · rw [if_pos (hexp_top.mpr h2)]
      rw [if_neg (show ¬(u < 2 ^ (F.BITS - 1) - 2 ^ F.MANTISSA_BITS) from by omega)]
      have hsplit : u = (u - (2 ^ (F.BITS - 1) - 2 ^ F.MANTISSA_BITS))
          + (2 ^ F.EXP_BITS - 1) * 2 ^ F.MANTISSA_BITS := by
        rw [← hEeq]
        omega
      have hmod_top : u % 2 ^ F.MANTISSA_BITS
          = u - (2 ^ (F.BITS - 1) - 2 ^ F.MANTISSA_BITS) := by
        conv_lhs => rw [hsplit]
        rw [Nat.add_mul_mod_self_right]
        exact Nat.mod_eq_of_lt (by omega)
      rw [hmod_top]
      rcases eq_or_ne u (2 ^ (F.BITS - 1) - 2 ^ F.MANTISSA_BITS) with h3 | h3
      · rw [if_pos (show u - (2 ^ (F.BITS - 1) - 2 ^ F.MANTISSA_BITS) = 0 from by omega)]
        rw [if_pos h3]
      · rw [if_neg (show ¬(u - (2 ^ (F.BITS - 1) - 2 ^ F.MANTISSA_BITS) = 0) from by omega)]
        rw [if_neg h3]

/-! ### The comparator in terms of sort keys -/

theorem total_cmp_lt_iff (F : Format) (a b : Value) :
    F.total_cmp a b = .lt ↔ F.sort_bits a < F.sort_bits b := by
  unfold Format.total_cmp
  rcases lt_trichotomy (F.sort_bits a) (F.sort_bits b) with h | h | h
  · rw [if_neg (ne_of_lt h), if_pos h]
    simp [h]
  · rw [if_pos h]
    simp [h]
  · rw [if_neg (ne_of_gt h), if_neg (not_lt_of_gt h)]
    simp [not_lt_of_gt h]

theorem total_cmp_eq_iff (F : Format) (a b : Value) :
    F.total_cmp a b = .eq ↔ F.sort_bits a = F.sort_bits b := by
  unfold Format.total_cmp
  rcases lt_trichotomy (F.sort_bits a) (F.sort_bits b) with h | h | h
  · rw [if_neg (ne_of_lt h), if_pos h]
    simp [ne_of_lt h]
  · rw [if_pos h]
    simp [h]
  · rw [if_neg (ne_of_gt h), if_neg (not_lt_of_gt h)]
    simp [ne_of_gt h]

theorem total_cmp_gt_iff (F : Format) (a b : Value) :
    F.total_cmp a b = .gt ↔ F.sort_bits b < F.sort_bits a := by
  unfold Format.total_cmp
  rcases lt_trichotomy (F.sort_bits a) (F.sort_bits b) with h | h | h
  · rw [if_neg (ne_of_lt h), if_pos h]
    simp [not_lt_of_gt h]
  · rw [if_pos h]
    simp [h]
  · rw [if_neg (ne_of_gt h), if_neg (not_lt_of_gt h)]
    simp [h]

theorem mod_half_of_ge {x n : Nat} (h1 : 2 ^ n ≤ x) (h2 : x < 2 ^ n * 2) :
    x % 2 ^ n = x - 2 ^ n := by
  rw [Nat.mod_eq_sub_mod h1, Nat.mod_eq_of_lt (by omega)]

theorem sort_bits_inj (F : Format) (hF : F.Valid) (a b : Value)
    (ha : a.bits < 2 ^ F.BITS) (hb : b.bits < 2 ^ F.BITS)
    (h : F.sort_bits a = F.sort_bits b) : a = b := by
  have hh : (2 : Nat) ^ F.BITS = 2 ^ (F.BITS - 1) * 2 := by
    rw [← Nat.pow_succ]
    congr 1
    obtain ⟨he, hw⟩ := hF
    omega
  rw [sort_bits_eq F hF a ha, sort_bits_eq F hF b hb] at h
  have hbits : a.bits = b.bits := by
    rcases Nat.lt_or_ge a.bits (2 ^ (F.BITS - 1)) with hx | hx <;>
      rcases Nat.lt_or_ge b.bits (2 ^ (F.BITS - 1)) with hy | hy
    · rw [if_neg (Nat.not_le.mpr hx), if_neg (Nat.not_le.mpr hy)] at h
      exact_mod_cast h
    · rw [if_neg (Nat.not_le.mpr hx), if_pos hy] at h
      rw [mod_half_of_ge hy (by omega)] at h
      omega
    · rw [if_pos hx, if_neg (Nat.not_le.mpr hy)] at h
      rw [mod_half_of_ge hx (by omega)] at h
      omega
    · rw [if_pos hx, if_pos hy] at h
      rw [mod_half_of_ge hx (by omega), mod_half_of_ge hy (by omega)] at h
      omega
  cases a
  cases b
  simpa using hbits

end FloatBits

namespace FloatBits

/-! ### Sort keys bounded by rank intervals -/

theorem mod_mant_of_top (F : Format) (hF : F.Valid) {u : Nat}
    (h2 : 2 ^ (F.BITS - 1) - 2 ^ F.MANTISSA_BITS ≤ u) (hu : u < 2 ^ (F.BITS - 1)) :
    u % 2 ^ F.MANTISSA_BITS = u - (2 ^ (F.BITS - 1) - 2 ^ F.MANTISSA_BITS) := by
  have hMpos : 0 < 2 ^ F.MANTISSA_BITS := Nat.two_pow_pos _
  have hme := mantBits_add_expBits F hF
  have hpow : 2 ^ F.MANTISSA_BITS * 2 ^ F.EXP_BITS = 2 ^ (F.BITS - 1) := by
    rw [← Nat.pow_add, hme]
  have hEeq : 2 ^ (F.BITS - 1) - 2 ^ F.MANTISSA_BITS
      = (2 ^ F.EXP_BITS - 1) * 2 ^ F.MANTISSA_BITS := by
    rw [tsub_mul, one_mul, Nat.mul_comm (2 ^ F.EXP_BITS) (2 ^ F.MANTISSA_BITS), hpow]
  have hsplit : u = (u - (2 ^ (F.BITS - 1) - 2 ^ F.MANTISSA_BITS))
      + (2 ^ F.EXP_BITS - 1) * 2 ^ F.MANTISSA_BITS := by
    rw [← hEeq]
    omega
  conv_lhs => rw [hsplit]
  rw [Nat.add_mul_mod_self_right]
  exact Nat.mod_eq_of_lt (by omega)

theorem key_bounds (F : Format) (hF : F.Valid) (v : Value) (hv : v.bits < 2 ^ F.BITS) :
    keyLo F (rank F v) ≤ F.sort_bits v ∧ F.sort_bits v ≤ keyHi F (rank F v) := by
  have hm1 : 0 < F.MANTISSA_BITS := mantBits_pos F hF
  have hme := mantBits_add_expBits F hF
  have hQ : (2 : Nat) ^ F.MANTISSA_BITS = 2 ^ (F.MANTISSA_BITS - 1) * 2 := by
    rw [← Nat.pow_succ]
    congr 1
    omega
  have hEN : (2 : Nat) ^ F.MANTISSA_BITS * 2 ≤ 2 ^ (F.BITS - 1) := by
    have h := Nat.pow_le_pow_right (show 1 ≤ 2 from by norm_num)
      (show F.MANTISSA_BITS + 1 ≤ F.BITS - 1 from by obtain ⟨he, hw⟩ := hF; omega)
    rw [Nat.pow_succ] at h
    exact h
  have hE0 : ¬(2 ^ (F.BITS - 1) - 2 ^ F.MANTISSA_BITS = 0) := by
    have := Nat.two_pow_pos F.MANTISSA_BITS
    omega
  have hEm : ¬(2 ^ (F.BITS - 1) - 2 ^ F.MANTISSA_BITS < 2 ^ F.MANTISSA_BITS) := by
    have := Nat.two_pow_pos F.MANTISSA_BITS
    omega
  have hkey := sort_bits_eq F hF v hv
  have hclass := classify_char F hF v hv
  have hsign := sign_neg_char F hF v hv
  have hquiet0 := quiet_char F hF v
  set u := v.bits % 2 ^ (F.BITS - 1) with hu_def
  have hult : u < 2 ^ (F.BITS - 1) := Nat.mod_lt _ (Nat.two_pow_pos _)
  have hquiet : (v.bits &&& F.QUIET_MASK = 0) ↔
      u % 2 ^ F.MANTISSA_BITS < 2 ^ (F.MANTISSA_BITS - 1) := by
    rw [hquiet0, hu_def, Nat.mod_mod_of_dvd]
    exact pow_dvd_pow 2 (by omega)
  rcases Nat.lt_or_ge v.bits (2 ^ (F.BITS - 1)) with hs | hs
  · -- positive sign
    have hd : decide (2 ^ (F.BITS - 1) ≤ v.bits) = false := by
      simp [Nat.not_le.mpr hs]
    have hu_eq : u = v.bits := Nat.mod_eq_of_lt hs
    rw [hkey, if_neg (Nat.not_le.mpr hs)]
    rcases eq_or_ne u 0 with hA | hA
    · have hr : rank F v = 6 := by
        unfold rank
        rw [hclass, hsign, hd]
        simp [hA]
      rw [hr]
      simp only [keyLo, keyHi]
      have c1 : ((2 ^ F.MANTISSA_BITS : Nat) : Int) = 2 ^ F.MANTISSA_BITS := by push_cast; ring
      have c2 : ((2 ^ (F.MANTISSA_BITS - 1) : Nat) : Int) = 2 ^ (F.MANTISSA_BITS - 1) := by push_cast; ring
      have c3 : ((2 ^ (F.BITS - 1) : Nat) : Int) = 2 ^ (F.BITS - 1) := by push_cast; ring
      omega
    · rcases Nat.lt_or_ge u (2 ^ F.MANTISSA_BITS) with hB | hB
      · have hr : rank F v = 7 := by
          unfold rank
          rw [hclass, hsign, hd]
          simp [hA, hB]
        rw [hr]
        simp only [keyLo, keyHi]
        have c1 : ((2 ^ F.MANTISSA_BITS : Nat) : Int) = 2 ^ F.MANTISSA_BITS := by push_cast; ring
        have c2 : ((2 ^ (F.MANTISSA_BITS - 1) : Nat) : Int) = 2 ^ (F.MANTISSA_BITS - 1) := by push_cast; ring
        have c3 : ((2 ^ (F.BITS - 1) : Nat) : Int) = 2 ^ (F.BITS - 1) := by push_cast; ring
        omega
      · have hB' : ¬(u < 2 ^ F.MANTISSA_BITS) := Nat.not_lt.mpr hB
        rcases Nat.lt_or_ge u (2 ^ (F.BITS - 1) - 2 ^ F.MANTISSA_BITS) with hC | hC
        · have hr : rank F v = 8 := by
            unfold rank
            rw [hclass, hsign, hd]
            simp [hA, hB', hC]
          rw [hr]
          simp only [keyLo, keyHi]
          have c1 : ((2 ^ F.MANTISSA_BITS : Nat) : Int) = 2 ^ F.MANTISSA_BITS := by push_cast; ring
          have c2 : ((2 ^ (F.MANTISSA_BITS - 1) : Nat) : Int) = 2 ^ (F.MANTISSA_BITS - 1) := by push_cast; ring
          have c3 : ((2 ^ (F.BITS - 1) : Nat) : Int) = 2 ^ (F.BITS - 1) := by push_cast; ring
          omega
        · have hC' : ¬(u < 2 ^ (F.BITS - 1) - 2 ^ F.MANTISSA_BITS) := Nat.not_lt.mpr hC
          rcases eq_or_ne u (2 ^ (F.BITS - 1) - 2 ^ F.MANTISSA_BITS) with hD | hD
          · have hr : rank F v = 9 := by
              unfold rank
              rw [hclass, hsign, hd]
              simp [hA, hB', hC', hD, hE0, hEm]
            rw [hr]
            simp only [keyLo, keyHi]
            have c1 : ((2 ^ F.MANTISSA_BITS : Nat) : Int) = 2 ^ F.MANTISSA_BITS := by push_cast; ring
            have c2 : ((2 ^ (F.MANTISSA_BITS - 1) : Nat) : Int) = 2 ^ (F.MANTISSA_BITS - 1) := by push_cast; ring
            have c3 : ((2 ^ (F.BITS - 1) : Nat) : Int) = 2 ^ (F.BITS - 1) := by push_cast; ring
            omega
          · have hmod : u % 2 ^ F.MANTISSA_BITS
                = u - (2 ^ (F.BITS - 1) - 2 ^ F.MANTISSA_BITS) :=
              mod_mant_of_top F hF hC hult
            rcases Nat.lt_or_ge (u - (2 ^ (F.BITS - 1) - 2 ^ F.MANTISSA_BITS))
                (2 ^ (F.MANTISSA_BITS - 1)) with hq | hq
            · have hr : rank F v = 10 := by
                unfold rank
                rw [hclass, hsign, hd]
                simp [hA, hB', hC', hD, hquiet, hmod, hq]
              rw [hr]
              simp only [keyLo, keyHi]
              have c1 : ((2 ^ F.MANTISSA_BITS : Nat) : Int) = 2 ^ F.MANTISSA_BITS := by push_cast; ring
              have c2 : ((2 ^ (F.MANTISSA_BITS - 1) : Nat) : Int) = 2 ^ (F.MANTISSA_BITS - 1) := by push_cast; ring
              have c3 : ((2 ^ (F.BITS - 1) : Nat) : Int) = 2 ^ (F.BITS - 1) := by push_cast; ring
              omega
            · have hq' : ¬(u - (2 ^ (F.BITS - 1) - 2 ^ F.MANTISSA_BITS)
                  < 2 ^ (F.MANTISSA_BITS - 1)) := Nat.not_lt.mpr hq
              have hr : rank F v = 11 := by
                unfold rank
                rw [hclass, hsign, hd]
                simp [hA, hB', hC', hD, hquiet, hmod, hq']
              rw [hr]
              simp only [keyLo, keyHi]
              have c1 : ((2 ^ F.MANTISSA_BITS : Nat) : Int) = 2 ^ F.MANTISSA_BITS := by push_cast; ring
              have c2 : ((2 ^ (F.MANTISSA_BITS - 1) : Nat) : Int) = 2 ^ (F.MANTISSA_BITS - 1) := by push_cast; ring
              have c3 : ((2 ^ (F.BITS - 1) : Nat) : Int) = 2 ^ (F.BITS - 1) := by push_cast; ring
              omega
  · -- negative sign
    have hd : decide (2 ^ (F.BITS - 1) ≤ v.bits) = true := by simp [hs]
    rw [hkey, if_pos hs]
    rcases eq_or_ne u 0 with hA | hA
    · have hr : rank F v = 5 := by
        unfold rank
        rw [hclass, hsign, hd]
        simp [hA]
      rw [hr]
      simp only [keyLo, keyHi]
      have c1 : ((2 ^ F.MANTISSA_BITS : Nat) : Int) = 2 ^ F.MANTISSA_BITS := by push_cast; ring
      have c2 : ((2 ^ (F.MANTISSA_BITS - 1) : Nat) : Int) = 2 ^ (F.MANTISSA_BITS - 1) := by push_cast; ring
      have c3 : ((2 ^ (F.BITS - 1) : Nat) : Int) = 2 ^ (F.BITS - 1) := by push_cast; ring
      omega
    · rcases Nat.lt_or_ge u (2 ^ F.MANTISSA_BITS) with hB | hB
      · have hr : rank F v = 4 := by
          unfold rank
          rw [hclass, hsign, hd]
          simp [hA, hB]
        rw [hr]
        simp only [keyLo, keyHi]
        have c1 : ((2 ^ F.MANTISSA_BITS : Nat) : Int) = 2 ^ F.MANTISSA_BITS := by push_cast; ring
        have c2 : ((2 ^ (F.MANTISSA_BITS - 1) : Nat) : Int) = 2 ^ (F.MANTISSA_BITS - 1) := by push_cast; ring
        have c3 : ((2 ^ (F.BITS - 1) : Nat) : Int) = 2 ^ (F.BITS - 1) := by push_cast; ring
        omega
      · have hB' : ¬(u < 2 ^ F.MANTISSA_BITS) := Nat.not_lt.mpr hB
        rcases Nat.lt_or_ge u (2 ^ (F.BITS - 1) - 2 ^ F.MANTISSA_BITS) with hC | hC
        · have hr : rank F v = 3 := by
            unfold rank
            rw [hclass, hsign, hd]
            simp [hA, hB', hC]
          rw [hr]
          simp only [keyLo, keyHi]
          have c1 : ((2 ^ F.MANTISSA_BITS : Nat) : Int) = 2 ^ F.MANTISSA_BITS := by push_cast; ring
          have c2 : ((2 ^ (F.MANTISSA_BITS - 1) : Nat) : Int) = 2 ^ (F.MANTISSA_BITS - 1) := by push_cast; ring
          have c3 : ((2 ^ (F.BITS - 1) : Nat) : Int) = 2 ^ (F.BITS - 1) := by push_cast; ring
          omega
        · have hC' : ¬(u < 2 ^ (F.BITS - 1) - 2 ^ F.MANTISSA_BITS) := Nat.not_lt.mpr hC
          rcases eq_or_ne u (2 ^ (F.BITS - 1) - 2 ^ F.MANTISSA_BITS) with hD | hD
          · have hr : rank F v = 2 := by
              unfold rank
              rw [hclass, hsign, hd]
              simp [hA, hB', hC', hD, hE0, hEm]
            rw [hr]
            simp only [keyLo, keyHi]
            have c1 : ((2 ^ F.MANTISSA_BITS : Nat) : Int) = 2 ^ F.MANTISSA_BITS := by push_cast; ring
            have c2 : ((2 ^ (F.MANTISSA_BITS - 1) : Nat) : Int) = 2 ^ (F.MANTISSA_BITS - 1) := by push_cast; ring
            have c3 : ((2 ^ (F.BITS - 1) : Nat) : Int) = 2 ^ (F.BITS - 1) := by push_cast; ring
            omega
          · have hmod : u % 2 ^ F.MANTISSA_BITS
                = u - (2 ^ (F.BITS - 1) - 2 ^ F.MANTISSA_BITS) :=
              mod_mant_of_top F hF hC hult
            rcases Nat.lt_or_ge (u - (2 ^ (F.BITS - 1) - 2 ^ F.MANTISSA_BITS))
                (2 ^ (F.MANTISSA_BITS - 1)) with hq | hq
            · have hr : rank F v = 1 := by
                unfold rank
                rw [hclass, hsign, hd]
                simp [hA, hB', hC', hD, hquiet, hmod, hq]
              rw [hr]
              simp only [keyLo, keyHi]
              have c1 : ((2 ^ F.MANTISSA_BITS : Nat) : Int) = 2 ^ F.MANTISSA_BITS := by push_cast; ring
              have c2 : ((2 ^ (F.MANTISSA_BITS - 1) : Nat) : Int) = 2 ^ (F.MANTISSA_BITS - 1) := by push_cast; ring
              have c3 : ((2 ^ (F.BITS - 1) : Nat) : Int) = 2 ^ (F.BITS - 1) := by push_cast; ring
              omega
            · have hq' : ¬(u - (2 ^ (F.BITS - 1) - 2 ^ F.MANTISSA_BITS)
                  < 2 ^ (F.MANTISSA_BITS - 1)) := Nat.not_lt.mpr hq
              have hr : rank F v = 0 := by
                unfold rank
                rw [hclass, hsign, hd]
                simp [hA, hB', hC', hD, hquiet, hmod, hq']
              rw [hr]
              simp only [keyLo, keyHi]
              have c1 : ((2 ^ F.MANTISSA_BITS : Nat) : Int) = 2 ^ F.MANTISSA_BITS := by push_cast; ring
              have c2 : ((2 ^ (F.MANTISSA_BITS - 1) : Nat) : Int) = 2 ^ (F.MANTISSA_BITS - 1) := by push_cast; ring
              have c3 : ((2 ^ (F.BITS - 1) : Nat) : Int) = 2 ^ (F.BITS - 1) := by push_cast; ring
              omega

end FloatBits

namespace FloatBits

theorem rank_le (F : Format) (v : Value) : rank F v ≤ 11 := by
  simp only [rank]
  split <;> split_ifs <;> omega

theorem keyHi_lt_keyLo (F : Format) (hF : F.Valid) {r s : Nat} (hrs : r < s) (hs11 : s ≤ 11) :
    keyHi F r < keyLo F s := by
  have hm1 : 0 < F.MANTISSA_BITS := mantBits_pos F hF
  have hme := mantBits_add_expBits F hF
  have hQn : (2 : Nat) ^ F.MANTISSA_BITS = 2 ^ (F.MANTISSA_BITS - 1) * 2 := by
    rw [← Nat.pow_succ]
    congr 1
    omega
  have hENn : (2 : Nat) ^ F.MANTISSA_BITS * 2 ≤ 2 ^ (F.BITS - 1) := by
    have h := Nat.pow_le_pow_right (show 1 ≤ 2 from by norm_num)
      (show F.MANTISSA_BITS + 1 ≤ F.BITS - 1 from by obtain ⟨he, hw⟩ := hF; omega)
    rw [Nat.pow_succ] at h
    exact h
  have hQpos : (0 : Nat) < 2 ^ (F.MANTISSA_BITS - 1) := Nat.two_pow_pos _
  have c1 : ((2 ^ F.MANTISSA_BITS : Nat) : Int) = 2 ^ F.MANTISSA_BITS := by push_cast; ring
  have c2 : ((2 ^ (F.MANTISSA_BITS - 1) : Nat) : Int) = 2 ^ (F.MANTISSA_BITS - 1) := by
    push_cast
    ring
  have c3 : ((2 ^ (F.BITS - 1) : Nat) : Int) = 2 ^ (F.BITS - 1) := by push_cast; ring
  have hstep : ∀ t : Nat, t ≤ 10 → keyHi F t < keyLo F (t + 1) := by
    intro t ht
    interval_cases t <;> simp only [keyLo, keyHi] <;> omega
  have hlomono : ∀ t : Nat, t ≤ 10 → keyLo F t ≤ keyLo F (t + 1) := by
    intro t ht
    interval_cases t <;> simp only [keyLo] <;> omega
  induction s with
  | zero => omega
  | succ k ih =>
    rcases Nat.lt_or_ge r k with h | h
    · have h1 := ih h (by omega)
      have h2 := hlomono k (by omega)
      linarith
    · have hrk : r = k := by omega
      subst hrk
      exact hstep r (by omega)

theorem key_lt_of_rank_lt (F : Format) (hF : F.Valid) {a b : Value}
    (ha : a.bits < 2 ^ F.BITS) (hb : b.bits < 2 ^ F.BITS)
    (h : rank F a < rank F b) : F.sort_bits a < F.sort_bits b := by
  have hA := key_bounds F hF a ha
  have hB := key_bounds F hF b hb
  have hgap := keyHi_lt_keyLo F hF h (rank_le F b)
  exact lt_of_le_of_lt hA.2 (lt_of_lt_of_le hgap hB.1)

end FloatBits

namespace FloatBits

/-! ### Claim theorems -/

/-- C1: for every format, `total_cmp` is a strict total order over all bit
patterns of the format's width: antisymmetric (`total_cmp a b` is the reverse
of `total_cmp b a`), transitive, total (every pair, NaN-vs-NaN and
NaN-vs-infinity included, yields `lt`, `eq` or `gt`), and `eq` holds exactly
when the two raw bit patterns are identical. -/
theorem c1_total_order (F : Format) (hF : F.Valid) (a b c : Value)
    (ha : a.bits < 2 ^ F.BITS) (hb : b.bits < 2 ^ F.BITS) (hc : c.bits < 2 ^ F.BITS) :
    F.total_cmp a b = (F.total_cmp b a).swap
    ∧ (F.total_cmp a b = .lt → F.total_cmp b c = .lt → F.total_cmp a c = .lt)
    ∧ (F.total_cmp a b = .lt ∨ F.total_cmp a b = .eq ∨ F.total_cmp a b = .gt)
    ∧ (F.total_cmp a b = .eq ↔ a.bits = b.bits) := by
  refine ⟨?_, ?_, ?_, ?_⟩
  · rcases lt_trichotomy (F.sort_bits a) (F.sort_bits b) with h | h | h
    · rw [(total_cmp_lt_iff F a b).mpr h, (total_cmp_gt_iff F b a).mpr h]
      rfl
    · rw [(total_cmp_eq_iff F a b).mpr h, (total_cmp_eq_iff F b a).mpr h.symm]
      rfl
    · rw [(total_cmp_gt_iff F a b).mpr h, (total_cmp_lt_iff F b a).mpr h]
      rfl
  · intro h1 h2
    rw [total_cmp_lt_iff] at h1 h2 ⊢
    exact lt_trans h1 h2
  · rcases lt_trichotomy (F.sort_bits a) (F.sort_bits b) with h | h | h
    · exact Or.inl ((total_cmp_lt_iff F a b).mpr h)
    · exact Or.inr (Or.inl ((total_cmp_eq_iff F a b).mpr h))
    · exact Or.inr (Or.inr ((total_cmp_gt_iff F a b).mpr h))
  · rw [total_cmp_eq_iff]
    constructor
    · intro h
      rw [sort_bits_inj F hF a b ha hb h]
    · intro h
      have hab : a = b := by
        cases a
        cases b
        simpa using h
      rw [hab]

/-- Witness for C1 at concrete F32 inputs. -/
theorem c1_total_order_witness :
    (F_F32.Valid
      ∧ (from_bits 3).bits < 2 ^ F_F32.BITS
      ∧ (from_bits 5).bits < 2 ^ F_F32.BITS
      ∧ (from_bits 7).bits < 2 ^ F_F32.BITS)
    ∧ (F_F32.total_cmp (from_bits 3) (from_bits 5)
          = (F_F32.total_cmp (from_bits 5) (from_bits 3)).swap
      ∧ (F_F32.total_cmp (from_bits 3) (from_bits 5) = .lt →
          F_F32.total_cmp (from_bits 5) (from_bits 7) = .lt →
          F_F32.total_cmp (from_bits 3) (from_bits 7) = .lt)
      ∧ (F_F32.total_cmp (from_bits 3) (from_bits 5) = .lt
          ∨ F_F32.total_cmp (from_bits 3) (from_bits 5) = .eq
          ∨ F_F32.total_cmp (from_bits 3) (from_bits 5) = .gt)
      ∧ (F_F32.total_cmp (from_bits 3) (from_bits 5) = .eq
          ↔ (from_bits 3).bits = (from_bits 5).bits)) :=
  ⟨⟨by decide, by decide, by decide, by decide⟩,
    c1_total_order F_F32 (by decide) (from_bits 3) (from_bits 5) (from_bits 7)
      (by decide) (by decide) (by decide)⟩

/-- C2: `total_cmp` orders values along the IEEE-754 totalOrder sequence
(negative quiet NaN, negative signaling NaN, negative infinity, negative
normals, negative subnormals, negative zero, positive zero, positive
subnormals, positive normals, positive infinity, positive signaling NaN,
positive quiet NaN): a value of strictly smaller rank in that sequence always
compares `lt`; in particular the five listed F32 comparisons are `lt`. -/
theorem c2_ordering_sequence (F : Format) (hF : F.Valid) (a b : Value)
    (ha : a.bits < 2 ^ F.BITS) (hb : b.bits < 2 ^ F.BITS) :
    (rank F a < rank F b → F.total_cmp a b = .lt)
    ∧ F_F32.total_cmp F_F32.NEG_QNAN F_F32.NEG_SNAN = .lt
    ∧ F_F32.total_cmp F_F32.NEG_SNAN F_F32.NEG_INFINITY = .lt
    ∧ F_F32.total_cmp F_F32.NEG_ZERO F_F32.ZERO = .lt
    ∧ F_F32.total_cmp F_F32.ZERO F_F32.MIN_POSITIVE = .lt
    ∧ F_F32.total_cmp F_F32.SNAN F_F32.QNAN = .lt := by
  refine ⟨?_, by decide, by decide, by decide, by decide, by decide⟩
  intro h
  exact (total_cmp_lt_iff F a b).mpr (key_lt_of_rank_lt F hF ha hb h)

/-- Witness for C2 at concrete F32 inputs. -/
theorem c2_ordering_sequence_witness :
    (F_F32.Valid
      ∧ (from_bits 1).bits < 2 ^ F_F32.BITS
      ∧ (from_bits 2).bits < 2 ^ F_F32.BITS)
    ∧ ((rank F_F32 (from_bits 1) < rank F_F32 (from_bits 2) →
          F_F32.total_cmp (from_bits 1) (from_bits 2) = .lt)
      ∧ F_F32.total_cmp F_F32.NEG_QNAN F_F32.NEG_SNAN = .lt
      ∧ F_F32.total_cmp F_F32.NEG_SNAN F_F32.NEG_INFINITY = .lt
      ∧ F_F32.total_cmp F_F32.NEG_ZERO F_F32.ZERO = .lt
      ∧ F_F32.total_cmp F_F32.ZERO F_F32.MIN_POSITIVE = .lt
      ∧ F_F32.total_cmp F_F32.SNAN F_F32.QNAN = .lt) :=
  ⟨⟨by decide, by decide, by decide⟩,
    c2_ordering_sequence F_F32 (by decide) (from_bits 1) (from_bits 2)
      (by decide) (by decide)⟩

/-- C3: `classify` is determined solely by the exponent and mantissa fields
(the sign bit is ignored), according to the table: exponent field all zero and
mantissa zero is Zero; all zero, nonzero mantissa is Subnormal; all ones, zero
mantissa is Infinite; all ones, nonzero mantissa is NaN; anything else is
Normal — with the listed F32 and F64 boundary patterns as instances. -/
theorem c3_classify_table (F : Format) (hF : F.Valid) (v : Value) :
    F.classify (F.abs v) = F.classify v
    ∧ (v.bits &&& F.EXP_MASK = 0 → v.bits &&& F.MANT_MASK = 0 → F.classify v = .zero)
    ∧ (v.bits &&& F.EXP_MASK = 0 → v.bits &&& F.MANT_MASK ≠ 0 →
        F.classify v = .subnormal)
    ∧ (v.bits &&& F.EXP_MASK = F.EXP_MASK → v.bits &&& F.MANT_MASK = 0 →
        F.classify v = .infinite)
    ∧ (v.bits &&& F.EXP_MASK = F.EXP_MASK → v.bits &&& F.MANT_MASK ≠ 0 →
        F.classify v = .nan)
    ∧ (v.bits &&& F.EXP_MASK ≠ 0 → v.bits &&& F.EXP_MASK ≠ F.EXP_MASK →
        F.classify v = .normal)
    ∧ F_F32.classify (from_bits 0x00000000) = .zero
    ∧ F_F32.classify (from_bits 0x80000000) = .zero
    ∧ F_F32.classify (from_bits 0x00800000) = .normal
    ∧ F_F32.classify (from_bits 0x7f800000) = .infinite
    ∧ F_F32.classify (from_bits 0x7f800001) = .nan
    ∧ F_F32.classify (from_bits 0x7fc00001) = .nan
    ∧ F_F64.classify (from_bits 0x0000000000000000) = .zero
    ∧ F_F64.classify (from_bits 0x8000000000000000) = .zero
    ∧ F_F64.classify (from_bits 0x0010000000000000) = .normal
    ∧ F_F64.classify (from_bits 0x7ff0000000000000) = .infinite
    ∧ F_F64.classify (from_bits 0x7ff0000000000001) = .nan
    ∧ F_F64.classify (from_bits 0x7ff8000000000001) = .nan := by
  have hme := mantBits_add_expBits F hF
  have hEne : F.EXP_MASK ≠ 0 := by
    rw [expMask_eq F hF]
    have h1 := Nat.two_pow_pos F.MANTISSA_BITS
    have h2 : (2 : Nat) ^ F.MANTISSA_BITS * 2 ≤ 2 ^ (F.BITS - 1) := by
      have h := Nat.pow_le_pow_right (show 1 ≤ 2 from by norm_num)
        (show F.MANTISSA_BITS + 1 ≤ F.BITS - 1 from by obtain ⟨he, hw⟩ := hF; omega)
      rw [Nat.pow_succ] at h
      exact h
    omega
  have habs_exp : (F.abs v).bits &&& F.EXP_MASK = v.bits &&& F.EXP_MASK := by
    show (v.bits &&& F.ABS_MASK) &&& F.EXP_MASK = v.bits &&& F.EXP_MASK
    unfold Format.EXP_MASK
    rw [Nat.and_assoc v.bits, ← Nat.and_assoc F.ABS_MASK F.ABS_MASK, Nat.and_self]
  have habs_mant : (F.abs v).bits &&& F.MANT_MASK = v.bits &&& F.MANT_MASK := by
    show (v.bits &&& F.ABS_MASK) &&& F.MANT_MASK = v.bits &&& F.MANT_MASK
    rw [and_absMask F hF, and_mantMask F hF, and_mantMask F hF, Nat.mod_mod_of_dvd]
    exact pow_dvd_pow 2 (by omega)
  refine ⟨?_, ?_, ?_, ?_, ?_, ?_, by decide, by decide, by decide, by decide, by decide,
    by decide, by decide, by decide, by decide, by decide, by decide, by decide⟩
  · unfold Format.classify
    rw [habs_exp, habs_mant]
  · intro h1 h2
    simp [Format.classify, h1, h2]
  · intro h1 h2
    simp [Format.classify, h1, h2]
  · intro h1 h2
    simp [Format.classify, h1, h2, hEne]
  · intro h1 h2
    simp [Format.classify, h1, h2, hEne]
  · intro h1 h2
    simp [Format.classify, h1, h2]

/-- Witness for C3 at a concrete F32 input. -/
theorem c3_classify_table_witness :
    F_F32.Valid
    ∧ (F_F32.classify (F_F32.abs (from_bits 0xbf800000))
        = F_F32.classify (from_bits 0xbf800000)
      ∧ ((from_bits 0xbf800000).bits &&& F_F32.EXP_MASK = 0 →
          (from_bits 0xbf800000).bits &&& F_F32.MANT_MASK = 0 →
          F_F32.classify (from_bits 0xbf800000) = .zero)
      ∧ ((from_bits 0xbf800000).bits &&& F_F32.EXP_MASK = 0 →
          (from_bits 0xbf800000).bits &&& F_F32.MANT_MASK ≠ 0 →
          F_F32.classify (from_bits 0xbf800000) = .subnormal)
      ∧ ((from_bits 0xbf800000).bits &&& F_F32.EXP_MASK = F_F32.EXP_MASK →
          (from_bits 0xbf800000).bits &&& F_F32.MANT_MASK = 0 →
          F_F32.classify (from_bits 0xbf800000) = .infinite)
      ∧ ((from_bits 0xbf800000).bits &&& F_F32.EXP_MASK = F_F32.EXP_MASK →
          (from_bits 0xbf800000).bits &&& F_F32.MANT_MASK ≠ 0 →
          F_F32.classify (from_bits 0xbf800000) = .nan)
      ∧ ((from_bits 0xbf800000).bits &&& F_F32.EXP_MASK ≠ 0 →
          (from_bits 0xbf800000).bits &&& F_F32.EXP_MASK ≠ F_F32.EXP_MASK →
          F_F32.classify (from_bits 0xbf800000) = .normal)
      ∧ F_F32.classify (from_bits 0x00000000) = .zero
      ∧ F_F32.classify (from_bits 0x80000000) = .zero
      ∧ F_F32.classify (from_bits 0x00800000) = .normal
      ∧ F_F32.classify (from_bits 0x7f800000) = .infinite
      ∧ F_F32.classify (from_bits 0x7f800001) = .nan
      ∧ F_F32.classify (from_bits 0x7fc00001) = .nan
      ∧ F_F64.classify (from_bits 0x0000000000000000) = .zero
      ∧ F_F64.classify (from_bits 0x8000000000000000) = .zero
      ∧ F_F64.classify (from_bits 0x0010000000000000) = .normal
      ∧ F_F64.classify (from_bits 0x7ff0000000000000) = .infinite
      ∧ F_F64.classify (from_bits 0x7ff0000000000001) = .nan
      ∧ F_F64.classify (from_bits 0x7ff8000000000001) = .nan) :=
  ⟨by decide, c3_classify_table F_F32 (by decide) (from_bits 0xbf800000)⟩

end FloatBits

namespace FloatBits

/-- C4: `clamp(x, min, max)` fails fatally (modelled as `none`) exactly when
`min` is NaN, `max` is NaN, or `total_cmp(min, max)` is `gt` — for every `x`,
NaN included, and in no other case. -/
theorem c4_clamp_fatal_iff (F : Format) (v mn mx : Value) :
    F.clamp v mn mx = none ↔
      (F.is_nan mn = true ∨ F.is_nan mx = true ∨ F.total_cmp mn mx = .gt) := by
  unfold Format.clamp
  by_cases h1 : F.is_nan mn = true
  · simp [h1]
  · by_cases h2 : F.is_nan mx = true
    · simp [h1, h2]
    · by_cases h3 : F.total_cmp mn mx = .gt
      · simp [h1, h2, h3]
      · by_cases h4 : F.is_nan v = true
        · simp [h1, h2, h3, h4]
        · by_cases h5 : F.total_cmp v mn = .lt
          · simp [h1, h2, h3, h4, h5]
          · by_cases h6 : F.total_cmp v mx = .gt <;>
              simp [h1, h2, h3, h4, h5, h6]

/-- C5: with non-NaN bounds ordered `min ≤ max` under `total_cmp`, `clamp`
returns the NaN input unchanged bit-for-bit, and otherwise returns `min` when
the input compares `lt` against `min`, `max` when it compares `gt` against
`max`, and the input itself in every other case. -/
theorem c5_clamp_in_range (F : Format) (v mn mx : Value)
    (hmn : F.is_nan mn = false) (hmx : F.is_nan mx = false)
    (hord : F.total_cmp mn mx ≠ .gt) :
    (F.is_nan v = true → F.clamp v mn mx = some v)
    ∧ (F.is_nan v = false →
        F.clamp v mn mx =
          some (if F.total_cmp v mn = .lt then mn
                else if F.total_cmp v mx = .gt then mx
                else v)) := by
  unfold Format.clamp
  rw [hmn, hmx]
  constructor
  · intro hv
    rw [hv]
    simp [hord]
  · intro hv
    rw [hv]
    simp only [Bool.false_eq_true, if_false]
    rw [if_neg hord]
    by_cases h5 : F.total_cmp v mn = .lt
    · rw [if_pos h5, if_pos h5]
    · rw [if_neg h5, if_neg h5]
      by_cases h6 : F.total_cmp v mx = .gt
      · rw [if_pos h6, if_pos h6]
      · rw [if_neg h6, if_neg h6]

/-- Witness for C5 at concrete F32 inputs. -/
theorem c5_clamp_in_range_witness :
    (F_F32.is_nan F_F32.ZERO = false
      ∧ F_F32.is_nan F_F32.ONE = false
      ∧ F_F32.total_cmp F_F32.ZERO F_F32.ONE ≠ .gt)
    ∧ ((F_F32.is_nan (from_bits 0xc0000000) = true →
          F_F32.clamp (from_bits 0xc0000000) F_F32.ZERO F_F32.ONE
            = some (from_bits 0xc0000000))
      ∧ (F_F32.is_nan (from_bits 0xc0000000) = false →
          F_F32.clamp (from_bits 0xc0000000) F_F32.ZERO F_F32.ONE =
            some (if F_F32.total_cmp (from_bits 0xc0000000) F_F32.ZERO = .lt then F_F32.ZERO
                  else if F_F32.total_cmp (from_bits 0xc0000000) F_F32.ONE = .gt then F_F32.ONE
                  else from_bits 0xc0000000))) :=
  ⟨⟨by decide, by decide, by decide⟩,
    c5_clamp_in_range F_F32 (from_bits 0xc0000000) F_F32.ZERO F_F32.ONE
      (by decide) (by decide) (by decide)⟩

/-- C6: `neg` is an involution that flips exactly the sign bit (the top bit of
the pattern), and `abs` is idempotent. -/
theorem c6_neg_abs (F : Format) (hF : F.Valid) (v : Value) :
    F.neg (F.neg v) = v
    ∧ F.abs (F.abs v) = F.abs v
    ∧ (F.neg v).bits = v.bits ^^^ 2 ^ (F.BITS - 1) := by
  refine ⟨?_, ?_, ?_⟩
  · show Value.mk ((v.bits ^^^ F.SIGN_MASK) ^^^ F.SIGN_MASK) = v
    rw [Nat.xor_assoc, Nat.xor_self, Nat.xor_zero]
  · show Value.mk ((v.bits &&& F.ABS_MASK) &&& F.ABS_MASK) = F.abs v
    rw [Nat.and_assoc, Nat.and_self]
    rfl
  · show v.bits ^^^ F.SIGN_MASK = v.bits ^^^ 2 ^ (F.BITS - 1)
    rw [signMask_eq F hF]

/-- Witness for C6 at a concrete F32 input. -/
theorem c6_neg_abs_witness :
    F_F32.Valid
    ∧ (F_F32.neg (F_F32.neg (from_bits 0x12345678)) = from_bits 0x12345678
      ∧ F_F32.abs (F_F32.abs (from_bits 0x12345678)) = F_F32.abs (from_bits 0x12345678)
      ∧ (F_F32.neg (from_bits 0x12345678)).bits
          = (from_bits 0x12345678).bits ^^^ 2 ^ (F_F32.BITS - 1)) :=
  ⟨by decide, c6_neg_abs F_F32 (by decide) (from_bits 0x12345678)⟩

/-- C7: `abs` clears exactly the sign bit (the result is always sign-positive
and keeps every non-sign bit of the input), and `copysign` combines the
non-sign bits of its first argument with the sign bit of its second. -/
theorem c7_abs_copysign (F : Format) (hF : F.Valid) (v s : Value) :
    F.is_sign_positive (F.abs v) = true
    ∧ (F.abs v).bits &&& F.ABS_MASK = v.bits &&& F.ABS_MASK
    ∧ (F.copysign v s).bits &&& F.ABS_MASK = v.bits &&& F.ABS_MASK
    ∧ (F.copysign v s).bits &&& F.SIGN_MASK = s.bits &&& F.SIGN_MASK := by
  have hAS : F.ABS_MASK &&& F.SIGN_MASK = 0 := by
    rw [absMask_eq F hF, signMask_eq F hF, Nat.and_comm, Nat.and_pow_two_sub_one_eq_mod,
      Nat.mod_self]
  have hSA : F.SIGN_MASK &&& F.ABS_MASK = 0 := by
    rw [Nat.and_comm]
    exact hAS
  refine ⟨?_, ?_, ?_, ?_⟩
  · show decide ((v.bits &&& F.ABS_MASK) &&& F.SIGN_MASK = 0) = true
    rw [Nat.and_assoc, hAS, Nat.and_zero]
    simp
  · show (v.bits &&& F.ABS_MASK) &&& F.ABS_MASK = v.bits &&& F.ABS_MASK
    rw [Nat.and_assoc, Nat.and_self]
  · show ((v.bits &&& F.ABS_MASK) ||| (s.bits &&& F.SIGN_MASK)) &&& F.ABS_MASK
        = v.bits &&& F.ABS_MASK
    rw [Nat.and_distrib_right, Nat.and_assoc v.bits, Nat.and_self, Nat.and_assoc s.bits,
      hSA, Nat.and_zero, Nat.or_zero]
  · show ((v.bits &&& F.ABS_MASK) ||| (s.bits &&& F.SIGN_MASK)) &&& F.SIGN_MASK
        = s.bits &&& F.SIGN_MASK
    rw [Nat.and_distrib_right, Nat.and_assoc v.bits, hAS, Nat.and_zero,
      Nat.and_assoc s.bits, Nat.and_self]
    exact Nat.zero_or _

/-- Witness for C7 at concrete F32 inputs. -/
theorem c7_abs_copysign_witness :
    F_F32.Valid
    ∧ (F_F32.is_sign_positive (F_F32.abs (from_bits 0x87654321)) = true
      ∧ (F_F32.abs (from_bits 0x87654321)).bits &&& F_F32.ABS_MASK
          = (from_bits 0x87654321).bits &&& F_F32.ABS_MASK
      ∧ (F_F32.copysign (from_bits 0x87654321) (from_bits 0x00000001)).bits
            &&& F_F32.ABS_MASK
          = (from_bits 0x87654321).bits &&& F_F32.ABS_MASK
      ∧ (F_F32.copysign (from_bits 0x87654321) (from_bits 0x00000001)).bits
            &&& F_F32.SIGN_MASK
          = (from_bits 0x00000001).bits &&& F_F32.SIGN_MASK) :=
  ⟨by decide, c7_abs_copysign F_F32 (by decide) (from_bits 0x87654321) (from_bits 0x00000001)⟩

/-- C8: `signum` returns a NaN input unchanged bit-for-bit regardless of its
sign or payload, and otherwise returns `ONE` when the sign bit is clear and
`NEG_ONE` when it is set — including signed zeros, so `signum` of `NEG_ZERO`
is `NEG_ONE` and `signum` of `ZERO` is `ONE`. -/
theorem c8_signum (F : Format) (hF : F.Valid) (v : Value) :
    (F.is_nan v = true → F.signum v = v)
    ∧ (F.is_nan v = false →
        F.signum v = if v.bits &&& F.SIGN_MASK = 0 then F.ONE else F.NEG_ONE)
    ∧ F.signum F.NEG_ZERO = F.NEG_ONE
    ∧ F.signum F.ZERO = F.ONE := by
  have hzero_class : F.classify F.ZERO = .zero := by
    simp [Format.classify, Format.ZERO, from_bits]
  have hnz_bits : (F.NEG_ZERO).bits = 2 ^ (F.BITS - 1) := by
    show (0 : Nat) ^^^ F.SIGN_MASK = 2 ^ (F.BITS - 1)
    rw [Nat.zero_xor]
    exact signMask_eq F hF
  have hpos : 0 < 2 ^ (F.BITS - 1) := Nat.two_pow_pos _
  have hlt : 2 ^ (F.BITS - 1) < 2 ^ F.BITS := by
    have h2 : (2 : Nat) ^ F.BITS = 2 ^ (F.BITS - 1) * 2 := by
      rw [← Nat.pow_succ]
      congr 1
      obtain ⟨he, hw⟩ := hF
      omega
    omega
  have hnz_class : F.classify F.NEG_ZERO = .zero := by
    rw [classify_char F hF _ (by rw [hnz_bits]; exact hlt), hnz_bits, Nat.mod_self]
    simp
  have hnz_signneg : F.is_sign_negative F.NEG_ZERO = true := by
    unfold Format.is_sign_negative Format.is_sign_positive
    rw [hnz_bits, signMask_eq F hF, Nat.and_self]
    have hne : (2 : Nat) ^ (F.BITS - 1) ≠ 0 := by omega
    simp [hne]
  have hz_signneg : F.is_sign_negative F.ZERO = false := by
    unfold Format.is_sign_negative Format.is_sign_positive
    show (!decide ((0 : Nat) &&& F.SIGN_MASK = 0)) = false
    rw [Nat.zero_and]
    simp
  refine ⟨?_, ?_, ?_, ?_⟩
  · intro hv
    unfold Format.signum
    rw [hv]
    simp
  · intro hv
    unfold Format.signum
    rw [hv]
    simp only [Bool.false_eq_true, if_false]
    unfold Format.is_sign_negative Format.is_sign_positive
    by_cases h : v.bits &&& F.SIGN_MASK = 0 <;> simp [h]
  · unfold Format.signum
    rw [show F.is_nan F.NEG_ZERO = false from by
      simp [Format.is_nan, hnz_class, helpers.is_nan]]
    rw [hnz_signneg]
    simp
  · unfold Format.signum
    rw [show F.is_nan F.ZERO = false from by
      simp [Format.is_nan, hzero_class, helpers.is_nan]]
    rw [hz_signneg]
    simp

/-- Witness for C8 at a concrete F32 input. -/
theorem c8_signum_witness :
    F_F32.Valid
    ∧ ((F_F32.is_nan (from_bits 0xff800001) = true →
          F_F32.signum (from_bits 0xff800001) = from_bits 0xff800001)
      ∧ (F_F32.is_nan (from_bits 0xff800001) = false →
          F_F32.signum (from_bits 0xff800001) =
            if (from_bits 0xff800001).bits &&& F_F32.SIGN_MASK = 0
            then F_F32.ONE else F_F32.NEG_ONE)
      ∧ F_F32.signum F_F32.NEG_ZERO = F_F32.NEG_ONE
      ∧ F_F32.signum F_F32.ZERO = F_F32.ONE) :=
  ⟨by decide, c8_signum F_F32 (by decide) (from_bits 0xff800001)⟩

/-- C9: `from_bits`/`to_bits` are mutually inverse identity reinterpretations
that never fail, and the native interop `from_float`/`to_float` (bit
reinterpretations of the host float's storage) are mutually inverse
bit-for-bit, for every NaN payload and both signed zeros. -/
theorem c9_roundtrip :
    (∀ r : Nat, to_bits (from_bits r) = r)
    ∧ (∀ v : Value, from_bits (to_bits v) = v)
    ∧ (∀ x : NativeFloat, to_float (from_float x) = x)
    ∧ (∀ v : Value, from_float (to_float v) = v) :=
  ⟨fun _ => rfl, fun _ => rfl, fun _ => rfl, fun _ => rfl⟩

/-- C10: the `Default` instance of every format returns the constant `ZERO`,
whose raw bit pattern is all zeros, which classifies as Zero and is
sign-positive. -/
theorem c10_default_zero (F : Format) :
    F.defaultValue = F.ZERO
    ∧ (F.defaultValue).bits = 0
    ∧ F.classify F.defaultValue = .zero
    ∧ F.is_sign_positive F.defaultValue = true := by
  refine ⟨rfl, rfl, ?_, ?_⟩
  · simp [Format.defaultValue, Format.classify, Format.ZERO, from_bits]
  · simp [Format.defaultValue, Format.is_sign_positive, Format.ZERO, from_bits]

end FloatBits
